import Mathlib

/-!
Verification of the EML/vCard composition engine of pst_to_eml.

Shallow embedding conventions:
* JavaScript strings are embedded as `List Char`; `undefined`-able strings as
  `Option (List Char)` when the code distinguishes `undefined` from `""`, and as
  plain `List Char` with `[]` playing the falsy role when the code only ever
  tests truthiness (both `undefined` and `""` are falsy).
* `Uint8Array` byte sequences are `List Nat` together with the hypothesis that
  every entry is `< 256` where that matters.
* The streaming writer of EmlWriter.ts only appends chunks to an output sink,
  so every writer method is embedded as the list of characters it emits and a
  composition is the concatenation of the emissions in program order.
-/

namespace PstToEml

/-- CRLF line terminator used throughout the MIME writer. -/
def CRLF : List Char := ['\r', '\n']

/-- Concatenation of emitted chunks (the output sink joins chunks in order,
mirroring `chunks.join("")` in toEmlStringFrom). -/
def joinChunks : List (List Char) → List Char
  | [] => []
  | a :: r => a ++ joinChunks r

/-! ## Base64TransferEncoding (src/src/EmlWriter.ts lines 10-56) -/

/-- The base64 alphabet `base64Table` from EmlWriter.ts. -/
def base64Table : List Char :=
  "ABCDEFGHIJKLMNOPQRSTUVWXYZabcdefghijklmnopqrstuvwxyz0123456789+/".toList

/-- Table lookup `base64Table[n]`; the index is always masked by `&&& 63` at
call sites, so the default is never reached there. -/
def b64c (n : Nat) : Char := base64Table.getD n ' '

/-- One full 3-byte group: `(bytes[x] << 16) | (bytes[x+1] << 8) | bytes[x+2]`
mapped to four alphabet characters. -/
def quad3 (b0 b1 b2 : Nat) : List Char :=
  let word := ((b0 <<< 16) ||| (b1 <<< 8)) ||| b2
  [b64c ((word >>> 18) &&& 63), b64c ((word >>> 12) &&& 63),
   b64c ((word >>> 6) &&& 63), b64c (word &&& 63)]

/-- Final 2-byte group, padded with one `=`. -/
def quad2 (b0 b1 : Nat) : List Char :=
  let word := (b0 <<< 16) ||| (b1 <<< 8)
  [b64c ((word >>> 18) &&& 63), b64c ((word >>> 12) &&& 63),
   b64c ((word >>> 6) &&& 63), '=']

/-- Final 1-byte group, padded with two `=`. -/
def quad1 (b0 : Nat) : List Char :=
  let word := b0 <<< 16
  [b64c ((word >>> 18) &&& 63), b64c ((word >>> 12) &&& 63), '=', '=']

/-- The loop body of `Base64TransferEncoding.applyUint8Array`.  The JavaScript
loop walks an index `x` in steps of 3 and keeps `nextLfAt` and the current
`line`; here the not-yet-consumed bytes are the list argument.  After a final
partial group the loop performs the same wrap check and then breaks with
`rest <= 0`, which is the `[]` case emitting the pending `line` if non-empty. -/
def applyAux (cutLinePer : Nat) (eol : List Char) :
    List Nat → Nat → Nat → List Char → List (List Char)
  | [], _, _, line => if line ≠ [] then [line ++ eol] else []
  | b0 :: b1 :: b2 :: restBytes, x, nextLfAt, line =>
    let line2 := line ++ quad3 b0 b1 b2
    let x2 := x + 3
    if eol ≠ [] ∧ nextLfAt ≤ x2 then
      (line2 ++ eol) :: applyAux cutLinePer eol restBytes x2 (nextLfAt + cutLinePer) []
    else
      applyAux cutLinePer eol restBytes x2 nextLfAt line2
  | [b0, b1], x, nextLfAt, line =>
    let line2 := line ++ quad2 b0 b1
    let x2 := x + 3
    if eol ≠ [] ∧ nextLfAt ≤ x2 then
      (line2 ++ eol) :: applyAux cutLinePer eol [] x2 (nextLfAt + cutLinePer) []
    else
      applyAux cutLinePer eol [] x2 nextLfAt line2
  | [b0], x, nextLfAt, line =>
    let line2 := line ++ quad1 b0
    let x2 := x + 3
    if eol ≠ [] ∧ nextLfAt ≤ x2 then
      (line2 ++ eol) :: applyAux cutLinePer eol [] x2 (nextLfAt + cutLinePer) []
    else
      applyAux cutLinePer eol [] x2 nextLfAt line2

/-- `Base64TransferEncoding.applyUint8Array(data, cutLinePer)`: the generator's
yielded chunks, in order.  The default wrap length in the source is 54. -/
def applyUint8Array (data : List Nat) (cutLinePer : Nat) : List (List Char) :=
  let eol := if 1 ≤ cutLinePer then CRLF else []
  applyAux cutLinePer eol data 0 cutLinePer []

/-! ## A standard base64 decoder (specification side, for the round-trip
claims; this is not code of the repository). -/

/-- Index of a character in the base64 alphabet (64 when absent). -/
def b64idx (c : Char) : Nat := (base64Table.findIdx? (fun d => d = c)).getD 64

/-- Standard base64 decoding of a padded base64 text: groups of four symbols
become three bytes, a group ending in `=` two bytes, in `==` one byte. -/
def decodeB64 : List Char → List Nat
  | c0 :: c1 :: c2 :: c3 :: rest =>
    let i0 := b64idx c0
    let i1 := b64idx c1
    let i2 := b64idx c2
    let i3 := b64idx c3
    if c2 = '=' then [i0 * 4 + i1 / 16]
    else if c3 = '=' then [i0 * 4 + i1 / 16, (i1 % 16) * 16 + i2 / 4]
    else (i0 * 4 + i1 / 16) :: ((i1 % 16) * 16 + i2 / 4) :: ((i2 % 4) * 64 + i3) ::
      decodeB64 rest
  | _ => []

/-- Unwrapped base64 text of a byte sequence: the group encoding with no line
breaks inserted. -/
def encodeNoWrap : List Nat → List Char
  | [] => []
  | b0 :: b1 :: b2 :: rest => quad3 b0 b1 b2 ++ encodeNoWrap rest
  | [b0, b1] => quad2 b0 b1
  | [b0] => quad1 b0

/-- Character is not part of an inserted line break. -/
def notEol (c : Char) : Bool := !(c == '\r' || c == '\n')

/-- Strip the inserted CRLF line breaks from a base64 text. -/
def stripLineBreaks (s : List Char) : List Char := s.filter notEol

/-! ## UTF-8 (TextEncoder/TextDecoder model) and EncodeWordInBase64
(src/src/EmlWriter.ts lines 58-73) -/

/-- UTF-8 bytes of one unicode scalar value, as produced by `TextEncoder`. -/
def utf8EncodeChar (c : Char) : List Nat :=
  let n := c.toNat
  if n < 128 then [n]
  else if n < 2048 then [192 + n / 64, 128 + n % 64]
  else if n < 65536 then [224 + n / 4096, 128 + n / 64 % 64, 128 + n % 64]
  else [240 + n / 262144, 128 + n / 4096 % 64, 128 + n / 64 % 64, 128 + n % 64]

/-- UTF-8 encoding of a whole string (`utf8Encoder.encode`). -/
def utf8Encode : List Char → List Nat
  | [] => []
  | c :: rest => utf8EncodeChar c ++ utf8Encode rest

/-- `Base64TransferEncoding.applyStringAsUtf8`. -/
def applyStringAsUtf8 (data : List Char) (cutLinePer : Nat) : List (List Char) :=
  applyUint8Array (utf8Encode data) cutLinePer

/-- Standard UTF-8 decoding back to unicode scalar values (specification side,
for the round-trip claim; not code of the repository). -/
def utf8Decode (bytes : List Nat) : List Nat :=
  if hb : bytes = [] then []
  else
    let b0 := bytes.headD 0
    let rest := bytes.tail
    if b0 < 128 then b0 :: utf8Decode rest
    else if b0 < 224 then
      if rest = [] then []
      else ((b0 - 192) * 64 + (rest.headD 0 - 128)) :: utf8Decode rest.tail
    else if b0 < 240 then
      if rest.length < 2 then []
      else ((b0 - 224) * 4096 + (rest.headD 0 - 128) * 64 + (rest.tail.headD 0 - 128)) ::
        utf8Decode rest.tail.tail
    else
      if rest.length < 3 then []
      else ((b0 - 240) * 262144 + (rest.headD 0 - 128) * 4096 + (rest.tail.headD 0 - 128) * 64 +
        (rest.tail.tail.headD 0 - 128)) :: utf8Decode rest.tail.tail.tail
termination_by bytes.length
decreasing_by
  all_goals
    have hpos : 0 < bytes.length := List.length_pos.mpr hb
    simp [List.length_tail]
    omega

/-- The per-character safe test of the regular expression guarding
`EncodeWordInBase64.encodeIfNeeded`: space, the punctuation
! # $ % & @ : - / backslash _, and the ranges A-Z a-z 0-9. -/
def safeWordChar (c : Char) : Bool :=
  c == ' ' || c == '!' || c == '#' || c == '$' || c == '%' || c == '&' || c == '@' ||
  c == ':' || c == '-' || c == '/' || c == '\\' || c == '_' ||
  (decide ('A' ≤ c) && decide (c ≤ 'Z')) || (decide ('a' ≤ c) && decide (c ≤ 'z')) ||
  (decide ('0' ≤ c) && decide (c ≤ '9'))

namespace EncodeWordInBase64

/-- `EncodeWordInBase64.encode`: wrap a word as a base64 encoded word with the
no-wrap (cutLinePer 0) base64 mode. -/
def encode (word : List Char) : List Char :=
  "=?utf-8?B?".toList ++ joinChunks (applyStringAsUtf8 word 0) ++ "?=".toList

/-- `EncodeWordInBase64.encodeIfNeeded`. -/
def encodeIfNeeded (word : List Char) : List Char :=
  if word.all safeWordChar then word else encode word

end EncodeWordInBase64

/-! ## EmlWriter (src/src/EmlWriter.ts lines 75-224)

The writer only appends chunks to its emitter; each method below is the text
it emits, and a chained call sequence concatenates the emissions in order.
The word encoder passed to the writer in toEmlStringFrom is
`EncodeWordInBase64.encodeIfNeeded`, which is therefore inlined here. -/

/-- The `AddressSpec` record of EmlWriter.ts; absent (`undefined`) and empty
strings are both falsy in the source, embedded as `[]`. -/
structure AddressSpec where
  name : List Char
  email : List Char

namespace EmlWriter

/-- `writeHeader(name, value)` emits one CRLF-terminated header line. -/
def writeHeader (name value : List Char) : List Char :=
  name ++ ": ".toList ++ value ++ CRLF

/-- `contentId(cid)` wraps the encoded id in angle brackets. -/
def contentId (cid : List Char) : List Char :=
  writeHeader "Content-ID".toList
    ("<".toList ++ EncodeWordInBase64.encodeIfNeeded cid ++ ">".toList)

/-- `endBoundary(boundary)`. -/
def endBoundary (boundary : List Char) : List Char :=
  "--".toList ++ boundary ++ "--".toList ++ CRLF

/-- `beginBoundary(boundary)`. -/
def beginBoundary (boundary : List Char) : List Char :=
  "--".toList ++ boundary ++ CRLF

/-- `newLine()`. -/
def newLine : List Char := CRLF

/-- `contentTransferEncoding(type)`. -/
def contentTransferEncoding (t : List Char) : List Char :=
  writeHeader "Content-Transfer-Encoding".toList t

/-- `mimeVersion1()`. -/
def mimeVersion1 : List Char := writeHeader "MIME-Version".toList "1.0".toList

/-- `contentTypeMultipartMixed(boundary)`: the boundary parameter runs through
the word encoder before being quoted into the header value. -/
def contentTypeMultipartMixed (boundary : List Char) : List Char :=
  writeHeader "Content-Type".toList
    ("multipart/mixed; boundary=\"".toList ++
      EncodeWordInBase64.encodeIfNeeded boundary ++ "\"".toList)

/-- `contentType(type)`: raw pass-through. -/
def contentType (t : List Char) : List Char := writeHeader "Content-Type".toList t

/-- `messageId(messageId)`: omitted when the value is falsy. -/
def messageId (mid : Option (List Char)) : List Char :=
  match mid with
  | some m =>
    if m.isEmpty then []
    else writeHeader "Message-ID".toList (EncodeWordInBase64.encodeIfNeeded m)
  | none => []

/-- `date(date)`. -/
def date (d : List Char) : List Char :=
  writeHeader "Date".toList (EncodeWordInBase64.encodeIfNeeded d)

/-- `subject(subject)`. -/
def subject (s : List Char) : List Char :=
  writeHeader "Subject".toList (EncodeWordInBase64.encodeIfNeeded s)

/-- `writePerson(person)`. -/
def writePerson (person : AddressSpec) : List Char :=
  if ¬person.name.isEmpty ∧ ¬person.email.isEmpty then
    EncodeWordInBase64.encodeIfNeeded person.name ++ " <".toList ++ person.email ++ ">".toList
  else if ¬person.name.isEmpty then
    EncodeWordInBase64.encodeIfNeeded person.name
  else if ¬person.email.isEmpty then
    "<".toList ++ EncodeWordInBase64.encodeIfNeeded person.email ++ ">".toList
  else []

/-- `writePersons(headerName, persons)`: nothing for an empty list, else the
header line with the persons joined by a comma and a space (beginHeader and
the HeaderWriter value/end protocol). -/
def writePersons (headerName : List Char) (persons : List AddressSpec) : List Char :=
  if persons.isEmpty then []
  else headerName ++ ": ".toList ++
    List.intercalate ", ".toList (persons.map writePerson) ++ CRLF

/-- `to(data)`. -/
def «to» (data : List AddressSpec) : List Char := writePersons "To".toList data

/-- `cc(data)`. -/
def cc (data : List AddressSpec) : List Char := writePersons "Cc".toList data

/-- `bcc(data)`. -/
def bcc (data : List AddressSpec) : List Char := writePersons "Bcc".toList data

/-- `from(data)` (renamed: `from` is a Lean keyword). -/
def fromHeader (data : AddressSpec) : List Char :=
  writeHeader "From".toList (writePerson data)

end EmlWriter

/-! ## Utilities (src/src/utils.ts) and node's posix `path.parse` -/

/-- `applyFallbackRecipients(array, fallback)` from utils.ts: pushes the
fallback into an empty array. -/
def applyFallbackRecipients {α : Type} (array : List α) (fallback : α) : List α :=
  if array.isEmpty then array ++ [fallback] else array

/-- State of node's posix `path.parse` scanning loop: `startDot`, `startPart`,
`end` (named `endIdx`), `matchedSlash`, `preDotState`; the `-1` sentinels are
kept as `Int`. -/
structure ParseState where
  startDot : Int
  startPart : Nat
  endIdx : Int
  matchedSlash : Bool
  preDotState : Int

/-- The right-to-left character loop of node's posix `path.parse`; the first
argument of the recursion is one past the index to process next, counting
down to `start`; reaching a path separator after a non-separator stops the
scan recording `startPart`. -/
def scanPart (s : List Char) (start : Nat) : Nat → ParseState → ParseState
  | 0, st => st
  | i + 1, st =>
    if i < start then st
    else
      let c := s.getD i ' '
      if c = '/' then
        if !st.matchedSlash then
          ParseState.mk st.startDot (i + 1) st.endIdx st.matchedSlash st.preDotState
        else scanPart s start i st
      else
        let st1 :=
          if st.endIdx = -1 then
            ParseState.mk st.startDot st.startPart (Int.ofNat (i + 1)) false st.preDotState
          else st
        let st2 :=
          if c = '.' then
            if st1.startDot = -1 then
              ParseState.mk (Int.ofNat i) st1.startPart st1.endIdx st1.matchedSlash
                st1.preDotState
            else if st1.preDotState ≠ 1 then
              ParseState.mk st1.startDot st1.startPart st1.endIdx st1.matchedSlash 1
            else st1
          else if st1.startDot ≠ -1 then
            ParseState.mk st1.startDot st1.startPart st1.endIdx st1.matchedSlash (-1)
          else st1
        scanPart s start i st2

/-- JavaScript `path.slice(a, b)` for the non-negative indices used here. -/
def sliceStr (s : List Char) (a b : Nat) : List Char := (s.take b).drop a

/-- Result record of `path.parse`. -/
structure PathParsed where
  root : List Char
  dir : List Char
  base : List Char
  ext : List Char
  name : List Char

/-- Node's posix `path.parse` (used by utils.changeFileExtension; the tests and
the library run it on posix separators). -/
def posixParse (p : List Char) : PathParsed :=
  if p.isEmpty then PathParsed.mk [] [] [] [] []
  else
    let isAbsolute : Bool := p.headD ' ' == '/'
    let start := if isAbsolute then 1 else 0
    let root : List Char := if isAbsolute then ['/'] else []
    let st := scanPart p start p.length (ParseState.mk (-1) 0 (-1) true 0)
    let dir : List Char :=
      if st.startPart > 0 then sliceStr p 0 (st.startPart - 1)
      else if isAbsolute then ['/'] else []
    if st.endIdx = -1 then PathParsed.mk root dir [] [] []
    else
      let endN := st.endIdx.toNat
      let start2 := if st.startPart = 0 ∧ isAbsolute = true then 1 else st.startPart
      if st.startDot = -1 ∨ st.preDotState = 0 ∨
          (st.preDotState = 1 ∧ st.startDot = st.endIdx - 1 ∧
            st.startDot = Int.ofNat st.startPart + 1) then
        let nm := sliceStr p start2 endN
        PathParsed.mk root dir nm [] nm
      else
        PathParsed.mk root dir (sliceStr p start2 endN)
          (sliceStr p st.startDot.toNat endN) (sliceStr p start2 st.startDot.toNat)

/-- `changeFileExtension(fileName, newExt)` from utils.ts:
`(parsed.dir ? parsed.dir + path.sep : "") + parsed.name + newExt`. -/
def changeFileExtension (fileName newExt : List Char) : List Char :=
  let parsed := posixParse fileName
  (if ¬parsed.dir.isEmpty then parsed.dir ++ ['/'] else []) ++ parsed.name ++ newExt

/-- Modelled from the spec: `convertToUint8Array` is imported by index.ts from
utils.ts but the provided utils.ts only shows the analogous `convertToBuffer`;
per spec section 4.4 step 2, a non-embedding attachment carries its raw byte
content unchanged and a zero-length buffer when content is absent. -/
def convertToUint8Array (attachmentStream : Option (List Nat)) : List Nat :=
  attachmentStream.getD []

/-- JavaScript `String.prototype.split` with the separator regex that matches
a line feed optionally preceded by a carriage return. -/
def splitRN : List Char → List (List Char)
  | [] => [[]]
  | '\r' :: '\n' :: rest => [] :: splitRN rest
  | '\n' :: rest => [] :: splitRN rest
  | c :: rest =>
    match splitRN rest with
    | seg :: segs => (c :: seg) :: segs
    | [] => [[c]]

/-- Truthiness of an optional JavaScript string (`undefined` and `""` falsy). -/
def truthyStr : Option (List Char) → Bool
  | none => false
  | some s => !s.isEmpty

/-! ## The message data model and the EML composer
(src/src/index.ts, toEmlStringFrom lines 283-457)

The composer's upstream reads (recipient count/entries, attachment records,
embedded messages, body fields) are snapshots of the message record; they are
embedded as the fields of `EmailRec`.  The Date fallback chain
(delivery/submission/modification/creation time, else current time) produces
a timestamp string via `toString`; dates and the clock are not embeddable, so
the resulting string is the `dateStr` field.  The `uuidv4()` call producing
the random boundary seed is modelled by the explicit `uuid` parameter (the
same value is passed to recursive calls; no claim proved here depends on the
distinctness of generated boundaries). -/

/-- One collected recipient: `displayName`, `emailAddress`, `recipientType`
(MAPI_TO = 1, MAPI_CC = 2, MAPI_BCC = 3). -/
structure RecipEntry where
  name : List Char
  email : List Char
  recipType : Nat

/-- The attachment fields read by the composer: candidate file names, the
content id and the raw file data (`none` for `undefined`). -/
structure PSTAttachmentRec where
  longFilename : List Char
  filename : List Char
  displayName : List Char
  contentId : List Char
  fileData : Option (List Nat)

/-- `MsgConverterOptions` of index.ts; the boundary and message id options are
nullish-checked (`??`) in the source, so `none` models absent. -/
structure MsgConverterOptions where
  baseBoundary : Option (List Char)
  altBoundary : Option (List Char)
  messageId : Option (List Char)
  allowNestedEml : Bool

/-- A message record: sender, subject, timestamp string, bodies and, per
attachment, its record fields and the embedded message when
`getEmbeddedPSTMessage()` returns one. -/
inductive EmailRec : Type where
  | mk (senderName senderEmailAddress subject dateStr body bodyHTML : List Char)
      (recipients : List RecipEntry)
      (attachments : List (PSTAttachmentRec × Option EmailRec)) : EmailRec

/-- Recipient list of a message record. -/
def EmailRec.recipients : EmailRec → List RecipEntry
  | .mk _ _ _ _ _ _ r _ => r

/-- Attachment list of a message record. -/
def EmailRec.attachments : EmailRec → List (PSTAttachmentRec × Option EmailRec)
  | .mk _ _ _ _ _ _ _ a => a

/-- The `AttachmentRefined` record of index.ts. -/
structure AttachmentRefined where
  filename : List Char
  content : Option (List Nat)
  nestedMail : Option (List Char)
  cid : List Char

/-- The filename preference chain
`[longFilename, filename, displayName, "unnamed"].filter(it => it)[0]`. -/
def resolveFilename (attachment : PSTAttachmentRec) : List Char :=
  if ¬attachment.longFilename.isEmpty then attachment.longFilename
  else if ¬attachment.filename.isEmpty then attachment.filename
  else if ¬attachment.displayName.isEmpty then attachment.displayName
  else "unnamed".toList

/-- The recipient partition by role: `recipType === role ? {name, email} : null`
then dropping the nulls. -/
def partitionRecipients (recipients : List RecipEntry) (role : Nat) : List AddressSpec :=
  (recipients.map (fun r =>
    if r.recipType = role then some (AddressSpec.mk r.name r.email) else none)).filterMap id

/-- The multipart-alternative section of toEmlStringFrom (lines 389-416),
emitted when a plain or HTML body is present.  The source declares the part
with `contentTypeMultipartMixed(altBoundary)` (its own comment says
multipart/alternative); the HTML part comes first, then the plain part, both
base64-transfer-encoded with the default wrapping. -/
def altSection (topBoundary altBoundary body bodyHTML : List Char) : List Char :=
  EmlWriter.newLine ++ EmlWriter.beginBoundary topBoundary ++
  EmlWriter.contentTypeMultipartMixed altBoundary ++
  (if ¬bodyHTML.isEmpty then
    EmlWriter.newLine ++ EmlWriter.beginBoundary altBoundary ++
    EmlWriter.contentType "text/html; charset=utf-8".toList ++
    EmlWriter.contentTransferEncoding "base64".toList ++ EmlWriter.newLine ++
    joinChunks (applyStringAsUtf8 bodyHTML 54)
  else []) ++
  (if ¬body.isEmpty then
    EmlWriter.newLine ++ EmlWriter.beginBoundary altBoundary ++
    EmlWriter.contentType "text/plain; charset=utf-8".toList ++
    EmlWriter.contentTransferEncoding "base64".toList ++ EmlWriter.newLine ++
    joinChunks (applyStringAsUtf8 body 54)
  else []) ++
  EmlWriter.newLine ++ EmlWriter.endBoundary altBoundary

/-- One attachment part of toEmlStringFrom (lines 418-450): a truthy
`nestedMail` gives a `message/rfc822` part whose body is the nested text split
into lines each re-terminated with CRLF; otherwise a present `content` gives an
`application/octet-stream` part with the base64-encoded bytes. -/
def attachmentSection (topBoundary : List Char) (attachment : AttachmentRefined) : List Char :=
  if truthyStr attachment.nestedMail then
    EmlWriter.newLine ++ EmlWriter.beginBoundary topBoundary ++
    EmlWriter.contentType ("message/rfc822; name=\"".toList ++
      EncodeWordInBase64.encodeIfNeeded attachment.filename ++ "\"".toList) ++
    EmlWriter.contentTransferEncoding "7bit".toList ++
    (if ¬attachment.cid.isEmpty then EmlWriter.contentId attachment.cid else []) ++
    EmlWriter.newLine ++
    joinChunks ((splitRN (attachment.nestedMail.getD [])).map (fun line => line ++ CRLF))
  else if attachment.content.isSome then
    EmlWriter.newLine ++ EmlWriter.beginBoundary topBoundary ++
    EmlWriter.contentType ("application/octet-stream; name=\"".toList ++
      EncodeWordInBase64.encodeIfNeeded attachment.filename ++ "\"".toList) ++
    EmlWriter.writeHeader "Content-Disposition".toList
      ("attachment; filename=\"".toList ++
        EncodeWordInBase64.encodeIfNeeded attachment.filename ++ "\"".toList) ++
    EmlWriter.contentTransferEncoding "base64".toList ++
    (if ¬attachment.cid.isEmpty then EmlWriter.contentId attachment.cid else []) ++
    EmlWriter.newLine ++
    joinChunks (applyUint8Array (attachment.content.getD []) 54)
  else []

/-- The writer-driving phase of toEmlStringFrom, once the recipients and the
refined attachments are collected: headers, the body alternative section, the
attachment parts and the closing top boundary, concatenated in emission
order. -/
def emitEml (uuid : List Char) (options : MsgConverterOptions)
    (senderName senderEmailAddress subject dateStr body bodyHTML : List Char)
    (recipients : List RecipEntry)
    (attachmentsRefined : List AttachmentRefined) : List Char :=
  let topBoundary := options.baseBoundary.getD ("_b1".toList ++ uuid ++ "_".toList)
  let altBoundary := options.altBoundary.getD ("_b2".toList ++ uuid ++ "_".toList)
  EmlWriter.fromHeader (AddressSpec.mk senderName senderEmailAddress) ++
  EmlWriter.to (applyFallbackRecipients (partitionRecipients recipients 1)
    (AddressSpec.mk "undisclosed-recipients".toList [])) ++
  EmlWriter.cc (partitionRecipients recipients 2) ++
  EmlWriter.bcc (partitionRecipients recipients 3) ++
  EmlWriter.subject subject ++
  EmlWriter.date dateStr ++
  EmlWriter.messageId options.messageId ++
  EmlWriter.contentTypeMultipartMixed topBoundary ++
  EmlWriter.mimeVersion1 ++
  (if ¬bodyHTML.isEmpty ∨ ¬body.isEmpty then
    altSection topBoundary altBoundary body bodyHTML
  else []) ++
  joinChunks (attachmentsRefined.map (attachmentSection topBoundary)) ++
  EmlWriter.endBoundary topBoundary

mutual

/-- `toEmlStringFrom(options, email)`: collect the recipients and refined
attachments, then drive the writer.  The `uuid` parameter models the
`uuidv4()` boundary seed (see the section comment). -/
def toEmlStringFrom (uuid : List Char) (options : MsgConverterOptions) :
    EmailRec → List Char
  | .mk senderName senderEmailAddress subject dateStr body bodyHTML recipients attachments =>
    emitEml uuid options senderName senderEmailAddress subject dateStr body bodyHTML
      recipients (refineAttachments uuid options attachments)

/-- The attachment-refinement loop of toEmlStringFrom (lines 296-334): an
embedded message is recursively composed, as text when `allowNestedEml` and as
UTF-8 bytes (`toEmlFrom`) otherwise, in both cases with the filename extension
changed to `.eml`; other attachments carry their raw bytes. -/
def refineAttachments (uuid : List Char) (options : MsgConverterOptions) :
    List (PSTAttachmentRec × Option EmailRec) → List AttachmentRefined
  | [] => []
  | (attachment, some embedded) :: rest =>
    (if options.allowNestedEml then
      AttachmentRefined.mk (changeFileExtension (resolveFilename attachment) ".eml".toList)
        none (some (toEmlStringFrom uuid options embedded)) attachment.contentId
    else
      AttachmentRefined.mk (changeFileExtension (resolveFilename attachment) ".eml".toList)
        (some (utf8Encode (toEmlStringFrom uuid options embedded))) none
        attachment.contentId) ::
    refineAttachments uuid options rest
  | (attachment, none) :: rest =>
    AttachmentRefined.mk (resolveFilename attachment)
      (some (convertToUint8Array attachment.fileData)) none attachment.contentId ::
    refineAttachments uuid options rest

end

/-- `toEmlFrom(options, email)`: the UTF-8 bytes of the composed text. -/
def toEmlFrom (uuid : List Char) (options : MsgConverterOptions) (email : EmailRec) :
    List Nat :=
  utf8Encode (toEmlStringFrom uuid options email)

/-! ## vCard composition (src/vLines.ts, provided as src/unnamed/part_002, and
toVCardStrFrom of src/src/index.ts lines 466-541) -/

/-- A JavaScript `string | string[] | undefined` vCard cell: a scalar that may
be `undefined`, or an array whose elements may each be `undefined`. -/
inductive VText where
  | vstr : Option (List Char) → VText
  | varr : List (Option (List Char)) → VText

/-- `toText(vCell)`: an array joins with `;` (undefined elements become empty
strings, as in `Array.prototype.join`); a scalar concatenates with `""`
(an undefined scalar would stringify to "undefined", though `convertVLines`
never prints one). -/
def toText : VText → List Char
  | .vstr (some v) => v
  | .vstr none => "undefined".toList
  | .varr vs => List.intercalate ";".toList (vs.map (fun o => o.getD []))

/-- One global `String.prototype.replace` pass for a single character. -/
def replaceChar (t : Char) (r : List Char) : List Char → List Char
  | [] => []
  | c :: rest => (if c = t then r else [c]) ++ replaceChar t r rest

/-- `vEscape(text)`: when the text contains CR, LF or TAB, escape those three
as quoted-printable and add the `;ENCODING=QUOTED-PRINTABLE` qualifier. -/
def vEscape (text : List Char) : List Char × List Char :=
  if text.any (fun c => c == '\r' || c == '\n' || c == '\t') then
    (";ENCODING=QUOTED-PRINTABLE".toList,
      replaceChar '\n' "=0A".toList (replaceChar '\r' "=0D".toList
        (replaceChar '\t' "=09".toList text)))
  else ([], text)

/-- `convertVLines(vLines)`: lines whose value cell is the undefined scalar are
skipped; every other line is `TAG[;QUALIFIERS]:VALUE`; lines join with a bare
newline. -/
def convertVLines (vLines : List (VText × VText)) : List Char :=
  List.intercalate "\n".toList
    (vLines.filterMap (fun vLine =>
      match vLine.2 with
      | .vstr none => none
      | v =>
        let printer := vEscape (toText v)
        some (toText vLine.1 ++ printer.1 ++ ":".toList ++ printer.2)))

/-- The contact fields read by `toVCardStrFrom`; `none` models `undefined`. -/
structure ContactRec where
  surname : Option (List Char)
  givenName : Option (List Char)
  middleName : Option (List Char)
  displayNamePrefix : Option (List Char)
  generation : Option (List Char)
  displayName : Option (List Char)
  yomiLastName : Option (List Char)
  yomiFirstName : Option (List Char)
  companyName : Option (List Char)
  departmentName : Option (List Char)
  yomiCompanyName : Option (List Char)
  title : Option (List Char)
  businessTelephoneNumber : Option (List Char)
  homeTelephoneNumber : Option (List Char)
  mobileTelephoneNumber : Option (List Char)
  businessFaxNumber : Option (List Char)
  workAddressStreet : Option (List Char)
  workAddressCity : Option (List Char)
  workAddressState : Option (List Char)
  workAddressPostalCode : Option (List Char)
  workAddressCountry : Option (List Char)
  workAddress : Option (List Char)
  businessHomePage : Option (List Char)
  email1EmailAddress : Option (List Char)

/-- `toVCardStrFrom(options, source)`: BEGIN and VERSION lines, the fixed
ordered maker table, then the END line, rendered by `convertVLines`.  Scalar
providers yield `vstr`, array providers always yield `varr` (never the
undefined scalar). -/
def toVCardStrFrom (options : MsgConverterOptions) (source : ContactRec) : List Char :=
  convertVLines (
    (VText.varr [some "BEGIN".toList], VText.vstr (some "VCARD".toList)) ::
    (VText.varr [some "VERSION".toList], VText.vstr (some "2.1".toList)) ::
    (VText.vstr (some "N".toList), VText.varr [source.surname, source.givenName,
      source.middleName, source.displayNamePrefix, source.generation]) ::
    (VText.vstr (some "FN".toList), VText.vstr source.displayName) ::
    (VText.vstr (some "X-MS-N-YOMI".toList),
      VText.varr [source.yomiLastName, source.yomiFirstName]) ::
    (VText.vstr (some "ORG".toList),
      VText.varr [source.companyName, source.departmentName]) ::
    (VText.vstr (some "X-MS-ORG-YOMI".toList), VText.vstr source.yomiCompanyName) ::
    (VText.vstr (some "TITLE".toList), VText.vstr source.title) ::
    (VText.varr [some "TEL".toList, some "WORK".toList, some "VOICE".toList],
      VText.vstr source.businessTelephoneNumber) ::
    (VText.varr [some "TEL".toList, some "HOME".toList, some "VOICE".toList],
      VText.vstr source.homeTelephoneNumber) ::
    (VText.varr [some "TEL".toList, some "CELL".toList, some "VOICE".toList],
      VText.vstr source.mobileTelephoneNumber) ::
    (VText.varr [some "TEL".toList, some "WORK".toList, some "FAX".toList],
      VText.vstr source.businessFaxNumber) ::
    (VText.varr [some "ADR".toList, some "WORK".toList, some "PREF".toList],
      VText.varr [source.workAddressStreet, source.workAddressCity,
        source.workAddressState, source.workAddressPostalCode,
        source.workAddressCountry]) ::
    (VText.varr [some "LABEL".toList, some "WORK".toList, some "PREF".toList],
      VText.vstr source.workAddress) ::
    (VText.varr [some "URL".toList, some "WORK".toList],
      VText.vstr source.businessHomePage) ::
    (VText.varr [some "EMAIL".toList, some "PREF".toList, some "INTERNET".toList],
      VText.vstr source.email1EmailAddress) ::
    (VText.varr [some "END".toList], VText.vstr (some "VCARD".toList)) :: [])

/-- A contact with every field absent. -/
def emptyContact : ContactRec :=
  ContactRec.mk none none none none none none none none none none none none
    none none none none none none none none none none none none

/-! ## Error handling of the MailComposer-based converter
(src/unnamed/part_003, PItem.toEmlFrom lines 271-287) -/

/-- Models the promise at the end of `PItem.toEmlFrom` in the
MailComposer-based module: the outcome of `new MailComposer(entity)` plus
`mail.compile().build(...)` is the `buildStep` argument (an exception thrown
synchronously and an error passed to the build callback both carry an error
text `e`); both failure routes reject with a single error whose message is
"EML composition failed." plus a newline plus the cause, and only the success
route resolves with the composed message. -/
def toEmlPromise (buildStep : Except (List Char) (List Char)) :
    Except (List Char) (List Char) :=
  match buildStep with
  | .error e => .error ("EML composition failed.\n".toList ++ e)
  | .ok message => .ok message

/-! ## Concrete scenario records used by the counterexample and witness
theorems -/

/-- Options fixing the boundaries to B1/B2, as the spec's concrete scenarios
do. -/
def fixedOptions : MsgConverterOptions :=
  MsgConverterOptions.mk (some "B1".toList) (some "B2".toList) none false

/-- The same fixed boundaries with `allowNestedEml` set. -/
def fixedOptionsNested : MsgConverterOptions :=
  MsgConverterOptions.mk (some "B1".toList) (some "B2".toList) none true

/-- A message with only a plain-text body. -/
def bodyOnlyMessage : EmailRec :=
  EmailRec.mk "s".toList "s@x".toList "subj".toList "date".toList "hi".toList [] [] []

/-- A message whose only recipient has the Cc role. -/
def ccOnlyMessage : EmailRec :=
  EmailRec.mk "s".toList "s@x".toList "subj".toList "date".toList [] [] 
    [RecipEntry.mk "n".toList "n@x".toList 2] []

/-- A message with one embedded-message attachment named report.msg. -/
def embeddedMessage : EmailRec :=
  EmailRec.mk "s".toList "s@x".toList "subj".toList "date".toList [] [] []
    [(PSTAttachmentRec.mk "report.msg".toList [] [] [] none, some bodyOnlyMessage)]

/-- A contact with only the display name set. -/
def nameOnlyContact (name : List Char) : ContactRec :=
  ContactRec.mk none none none none none (some name) none none none none none none
    none none none none none none none none none none none none

/-- A character that is neither a dot nor a path separator: the hypothesis
language for reasoning about `posixParse` on filenames of the ordinary shape
`dir/base.ext`. -/
def plainChar (c : Char) : Prop := c ≠ '.' ∧ c ≠ '/'

end PstToEml

namespace PstToEml

/-! ## Arithmetic facts about the bit-level encoding -/

theorem lor_of_lt (a : Nat) {b k : Nat} (hb : b < 2 ^ k) :
    (a <<< k) ||| b = a * 2 ^ k + b := by
  rw [Nat.shiftLeft_eq]
  rw [Nat.mul_comm a (2 ^ k)]
  exact (Nat.mul_add_lt_is_or hb a).symm

theorem and63_eq (x : Nat) : x &&& 63 = x % 64 := by
  have h : (63 : Nat) = 2 ^ 6 - 1 := rfl
  rw [h, Nat.and_pow_two_sub_one_eq_mod]

theorem shiftRight_and63 (w s : Nat) : (w >>> s) &&& 63 = w / 2 ^ s % 64 := by
  rw [Nat.shiftRight_eq_div_pow, and63_eq]

theorem word2_eq (b0 : Nat) {b1 : Nat} (h1 : b1 < 256) :
    (b0 <<< 16) ||| (b1 <<< 8) = b0 * 65536 + b1 * 256 := by
  have hlt : b1 <<< 8 < 2 ^ 16 := by
    rw [Nat.shiftLeft_eq]
    norm_num
    omega
  calc (b0 <<< 16) ||| (b1 <<< 8) = b0 * 2 ^ 16 + b1 <<< 8 := lor_of_lt b0 hlt
    _ = b0 * 65536 + b1 * 256 := by rw [Nat.shiftLeft_eq]; norm_num

theorem word3_eq (b0 : Nat) {b1 b2 : Nat} (h1 : b1 < 256) (h2 : b2 < 256) :
    ((b0 <<< 16) ||| (b1 <<< 8)) ||| b2 = b0 * 65536 + b1 * 256 + b2 := by
  rw [word2_eq b0 h1]
  have hx : b0 * 65536 + b1 * 256 = 2 ^ 8 * (b0 * 256 + b1) := by ring
  rw [hx, ← Nat.mul_add_lt_is_or (show b2 < 2 ^ 8 by omega)]

theorem mod64_lt (x : Nat) : x % 64 < 64 := Nat.mod_lt _ (by norm_num)

theorem b64idx_b64c_fin : ∀ n : Fin 64, b64idx (b64c n.val) = n.val := by decide

theorem b64c_ne_pad_fin : ∀ n : Fin 64, b64c n.val ≠ '=' := by decide

theorem b64c_notEol_fin : ∀ n : Fin 64, notEol (b64c n.val) = true := by decide

theorem b64idx_b64c {d : Nat} (h : d < 64) : b64idx (b64c d) = d :=
  b64idx_b64c_fin ⟨d, h⟩

theorem b64c_ne_pad {d : Nat} (h : d < 64) : b64c d ≠ '=' :=
  b64c_ne_pad_fin ⟨d, h⟩

end PstToEml

namespace PstToEml

/-! ## Decoding the quads -/

theorem decodeB64_quad3 {b0 b1 b2 : Nat} (h0 : b0 < 256) (h1 : b1 < 256) (h2 : b2 < 256)
    (rest : List Char) :
    decodeB64 (quad3 b0 b1 b2 ++ rest) = b0 :: b1 :: b2 :: decodeB64 rest := by
  have hw := word3_eq b0 h1 h2
  set w := b0 * 65536 + b1 * 256 + b2 with hwdef
  simp only [quad3, hw, Nat.shiftRight_eq_div_pow, and63_eq, List.cons_append, List.nil_append]
  simp only [decodeB64]
  rw [if_neg (b64c_ne_pad (mod64_lt _)), if_neg (b64c_ne_pad (mod64_lt _))]
  rw [b64idx_b64c (mod64_lt _), b64idx_b64c (mod64_lt _), b64idx_b64c (mod64_lt _),
    b64idx_b64c (mod64_lt _)]
  have e0 : w / 2 ^ 18 % 64 * 4 + w / 2 ^ 12 % 64 / 16 = b0 := by omega
  have e1 : w / 2 ^ 12 % 64 % 16 * 16 + w / 2 ^ 6 % 64 / 4 = b1 := by omega
  have e2 : w / 2 ^ 6 % 64 % 4 * 64 + w % 64 = b2 := by omega
  rw [e0, e1, e2]

theorem decodeB64_quad2 {b0 b1 : Nat} (h0 : b0 < 256) (h1 : b1 < 256) :
    decodeB64 (quad2 b0 b1) = [b0, b1] := by
  have hw := word2_eq b0 h1
  set w := b0 * 65536 + b1 * 256 with hwdef
  simp only [quad2, hw, Nat.shiftRight_eq_div_pow, and63_eq]
  simp only [decodeB64]
  rw [if_neg (b64c_ne_pad (mod64_lt _))]
  simp only [if_true]
  rw [b64idx_b64c (mod64_lt _), b64idx_b64c (mod64_lt _), b64idx_b64c (mod64_lt _)]
  have e0 : w / 2 ^ 18 % 64 * 4 + w / 2 ^ 12 % 64 / 16 = b0 := by omega
  have e1 : w / 2 ^ 12 % 64 % 16 * 16 + w / 2 ^ 6 % 64 / 4 = b1 := by omega
  rw [e0, e1]

theorem decodeB64_quad1 {b0 : Nat} (h0 : b0 < 256) :
    decodeB64 (quad1 b0) = [b0] := by
  have hw : b0 <<< 16 = b0 * 65536 := by rw [Nat.shiftLeft_eq]
  simp only [quad1, hw, Nat.shiftRight_eq_div_pow, and63_eq]
  simp only [decodeB64]
  simp only [if_true]
  rw [b64idx_b64c (mod64_lt _), b64idx_b64c (mod64_lt _)]
  have e0 : b0 * 65536 / 2 ^ 18 % 64 * 4 + b0 * 65536 / 2 ^ 12 % 64 / 16 = b0 := by omega
  rw [e0]

theorem decodeB64_encodeNoWrap : ∀ l : List Nat, (∀ b ∈ l, b < 256) →
    decodeB64 (encodeNoWrap l) = l
  | [] => fun _ => rfl
  | [b0] => fun h => by
    simp only [encodeNoWrap]
    exact decodeB64_quad1 (h b0 (by simp))
  | [b0, b1] => fun h => by
    simp only [encodeNoWrap]
    exact decodeB64_quad2 (h b0 (by simp)) (h b1 (by simp))
  | b0 :: b1 :: b2 :: rest => fun h => by
    simp only [encodeNoWrap]
    rw [decodeB64_quad3 (h b0 (by simp)) (h b1 (by simp)) (h b2 (by simp))]
    rw [decodeB64_encodeNoWrap rest (fun b hb => h b (by simp [hb]))]

end PstToEml

namespace PstToEml

/-! ## Stripping the inserted line breaks -/

theorem b64c_notEol (n : Nat) : notEol (b64c n) = true := by
  rcases Nat.lt_or_ge n 64 with h | h
  · exact b64c_notEol_fin ⟨n, h⟩
  · have hl : base64Table.length = 64 := by decide
    have : b64c n = ' ' := by
      unfold b64c
      rw [List.getD_eq_default]
      omega
    rw [this]
    decide

theorem strip_quad3 (b0 b1 b2 : Nat) : stripLineBreaks (quad3 b0 b1 b2) = quad3 b0 b1 b2 := by
  simp only [stripLineBreaks, quad3]
  simp only [List.filter, b64c_notEol]

theorem strip_quad2 (b0 b1 : Nat) : stripLineBreaks (quad2 b0 b1) = quad2 b0 b1 := by
  simp only [stripLineBreaks, quad2]
  simp only [List.filter, b64c_notEol]
  rfl

theorem strip_quad1 (b0 : Nat) : stripLineBreaks (quad1 b0) = quad1 b0 := by
  simp only [stripLineBreaks, quad1]
  simp only [List.filter, b64c_notEol]
  rfl

theorem strip_append (a b : List Char) :
    stripLineBreaks (a ++ b) = stripLineBreaks a ++ stripLineBreaks b :=
  List.filter_append a b

theorem strip_nil : stripLineBreaks [] = [] := rfl

theorem strip_applyAux (cut : Nat) (eol : List Char) (heol : stripLineBreaks eol = []) :
    ∀ (bytes : List Nat) (x nextLf : Nat) (line : List Char),
    stripLineBreaks (joinChunks (applyAux cut eol bytes x nextLf line)) =
      stripLineBreaks line ++ encodeNoWrap bytes
  | [], x, nextLf, line => by
    simp only [applyAux, encodeNoWrap]
    split
    · simp [joinChunks, strip_append, heol]
    · next hline =>
      simp only [ne_eq, not_not] at hline
      simp [hline, joinChunks, strip_nil]
  | b0 :: b1 :: b2 :: rest, x, nextLf, line => by
    simp only [applyAux, encodeNoWrap]
    split
    · simp [joinChunks, strip_append, heol, strip_quad3, strip_nil,
        strip_applyAux cut eol heol rest (x + 3) (nextLf + cut) [], List.append_assoc]
    · rw [strip_applyAux cut eol heol rest (x + 3) nextLf (line ++ quad3 b0 b1 b2)]
      simp [strip_append, strip_quad3, List.append_assoc]
  | [b0, b1], x, nextLf, line => by
    simp only [applyAux, encodeNoWrap]
    split
    · simp [joinChunks, strip_append, heol, strip_quad2, strip_nil,
        strip_applyAux cut eol heol [] (x + 3) (nextLf + cut) [], List.append_assoc]
    · have hne : line ++ quad2 b0 b1 ≠ [] := by simp [quad2]
      rw [if_pos hne]
      simp [joinChunks, strip_append, heol, strip_quad2, List.append_assoc]
  | [b0], x, nextLf, line => by
    simp only [applyAux, encodeNoWrap]
    split
    · simp [joinChunks, strip_append, heol, strip_quad1, strip_nil,
        strip_applyAux cut eol heol [] (x + 3) (nextLf + cut) [], List.append_assoc]
    · have hne : line ++ quad1 b0 ≠ [] := by simp [quad1]
      rw [if_pos hne]
      simp [joinChunks, strip_append, heol, strip_quad1, List.append_assoc]

/-- C1: for every byte sequence, concatenating the chunks produced by
`Base64TransferEncoding.applyUint8Array` with the default wrap length 54,
stripping the inserted CRLF line breaks and decoding with a standard base64
decoder yields exactly the input bytes; the empty sequence yields no chunks
(final partial groups are padded inside `quad2`/`quad1`, which the round trip
covers). -/
theorem base64_roundtrip (data : List Nat) (h : ∀ b ∈ data, b < 256) :
    decodeB64 (stripLineBreaks (joinChunks (applyUint8Array data 54))) = data ∧
    applyUint8Array [] 54 = [] := by
  constructor
  · have e : applyUint8Array data 54 = applyAux 54 CRLF data 0 54 [] := by
      simp [applyUint8Array]
    rw [e, strip_applyAux 54 CRLF (by decide) data 0 54 []]
    simp only [stripLineBreaks, List.filter_nil, List.nil_append]
    exact decodeB64_encodeNoWrap data h
  · rfl

/-- Witness for C1 at a concrete byte sequence. -/
theorem base64_roundtrip_witness :
    (∀ b ∈ [77, 97, 110, 255, 0], b < 256) ∧
    decodeB64 (stripLineBreaks (joinChunks (applyUint8Array [77, 97, 110, 255, 0] 54))) =
      [77, 97, 110, 255, 0] ∧
    applyUint8Array [] 54 = [] :=
  ⟨by decide, (base64_roundtrip [77, 97, 110, 255, 0] (by decide)).1,
    (base64_roundtrip [77, 97, 110, 255, 0] (by decide)).2⟩

end PstToEml

namespace PstToEml

/-! ## Line lengths of the wrapped base64 output (claim C2) -/

theorem mem_dropLast_cons {α : Type} {c a : α} {l : List α}
    (h : c ∈ (a :: l).dropLast) : c = a ∨ c ∈ l.dropLast := by
  cases l with
  | nil => simp [List.dropLast] at h
  | cons b t =>
    rw [List.dropLast_cons₂] at h
    rcases List.mem_cons.mp h with h2 | h2
    · exact Or.inl h2
    · exact Or.inr h2

theorem quad3_length (b0 b1 b2 : Nat) : (quad3 b0 b1 b2).length = 4 := rfl

theorem applyAux_chunk74 :
    ∀ (bytes : List Nat) (x k : Nat) (line : List Char), k ≤ 17 → line.length = 4 * k →
    ∀ c ∈ (applyAux 54 CRLF bytes x (x + (54 - 3 * k)) line).dropLast, c.length = 74
  | [], x, k, line => by
    intro hk hline c hc
    simp only [applyAux] at hc
    split at hc
    · simp at hc
    · simp at hc
  | b0 :: b1 :: b2 :: rest, x, k, line => by
    intro hk hline c hc
    simp only [applyAux] at hc
    split at hc
    · next hcond =>
      have hk17 : k = 17 := by
        rcases hcond with ⟨-, hle⟩
        omega
      subst hk17
      have harg : x + (54 - 3 * 17) + 54 = (x + 3) + (54 - 3 * 0) := by omega
      rw [harg] at hc
      rcases mem_dropLast_cons hc with h | h
      · subst h
        simp [hline, quad3_length, CRLF]
      · exact applyAux_chunk74 rest (x + 3) 0 [] (by omega) rfl c h
    · next hcond =>
      have hklt : k < 17 := by
        simp only [CRLF, ne_eq, not_and, not_le] at hcond
        have := hcond (by simp)
        omega
      have harg : x + (54 - 3 * k) = (x + 3) + (54 - 3 * (k + 1)) := by omega
      rw [harg] at hc
      exact applyAux_chunk74 rest (x + 3) (k + 1) (line ++ quad3 b0 b1 b2) (by omega)
        (by simp [hline, quad3_length]; omega) c hc
  | [b0, b1], x, k, line => by
    intro hk hline c hc
    simp only [applyAux] at hc
    split at hc
    · simp at hc
    · next hcond =>
      have hne : line ++ quad2 b0 b1 ≠ [] := by simp [quad2]
      rw [if_pos hne] at hc
      simp at hc
  | [b0], x, k, line => by
    intro hk hline c hc
    simp only [applyAux] at hc
    split at hc
    · simp at hc
    · next hcond =>
      have hne : line ++ quad1 b0 ≠ [] := by simp [quad1]
      rw [if_pos hne] at hc
      simp at hc

/-- C2 (amended): with the default wrap length, every chunk produced by
`applyUint8Array` except possibly the last is exactly 74 characters long
counting its trailing two-character CRLF (72 base64 characters per line,
i.e. 54 input bytes consumed per emitted line), not 76. -/
theorem base64_line_length (data : List Nat) :
    ∀ c ∈ (applyUint8Array data 54).dropLast, c.length = 74 := by
  intro c hc
  have e : applyUint8Array data 54 = applyAux 54 CRLF data 0 (0 + (54 - 3 * 0)) [] := by
    simp [applyUint8Array]
  rw [e] at hc
  exact applyAux_chunk74 data 0 0 [] (by omega) rfl c hc

/-- C2 counterexample: for the 55-byte input of zeros the first chunk is 74
characters long including its CRLF, not the claimed 76. -/
theorem base64_line_length_counterexample :
    ¬ (∀ c ∈ (applyUint8Array (List.replicate 55 0) 54).dropLast, c.length = 76) := by
  decide

/-- Witness for the amended C2 at a concrete input. -/
theorem base64_line_length_witness :
    ((applyUint8Array (List.replicate 55 0) 54).headD [] ∈
      (applyUint8Array (List.replicate 55 0) 54).dropLast) ∧
    ((applyUint8Array (List.replicate 55 0) 54).headD []).length = 74 :=
  ⟨by decide, base64_line_length (List.replicate 55 0) _ (by decide)⟩

end PstToEml

namespace PstToEml

/-! ## UTF-8 round trip and the encoded-word claim (C3) -/

theorem char_toNat_lt (c : Char) : c.toNat < 1114112 := by
  have hv := c.valid
  rcases hv with h | h
  · have : c.val.toNat < 55296 := h
    simp only [Char.toNat]
    omega
  · have h2 : c.val.toNat < 1114112 := h.2
    simp only [Char.toNat]
    omega

theorem utf8EncodeChar_lt (c : Char) : ∀ b ∈ utf8EncodeChar c, b < 256 := by
  intro b hb
  have hn := char_toNat_lt c
  simp only [utf8EncodeChar] at hb
  split at hb
  · simp at hb
    omega
  · split at hb
    · simp at hb
      rcases hb with h | h <;> omega
    · split at hb
      · simp at hb
        rcases hb with h | h | h <;> omega
      · simp at hb
        rcases hb with h | h | h | h <;> omega

theorem utf8Encode_lt (s : List Char) : ∀ b ∈ utf8Encode s, b < 256 := by
  induction s with
  | nil => intro b hb; simp [utf8Encode] at hb
  | cons c rest ih =>
    intro b hb
    simp only [utf8Encode, List.mem_append] at hb
    rcases hb with h | h
    · exact utf8EncodeChar_lt c b h
    · exact ih b h

theorem utf8Decode_nil : utf8Decode [] = [] := by
  rw [utf8Decode]
  simp

theorem utf8Decode_encodeChar (c : Char) (rest : List Nat) :
    utf8Decode (utf8EncodeChar c ++ rest) = c.toNat :: utf8Decode rest := by
  have hn := char_toNat_lt c
  simp only [utf8EncodeChar]
  split
  · next h =>
    simp only [List.cons_append, List.nil_append]
    rw [utf8Decode]
    rw [dif_neg (by simp)]
    simp only [List.headD_cons, List.tail_cons]
    rw [if_pos h]
  · next h =>
    split
    · next h2 =>
      simp only [List.cons_append, List.nil_append]
      rw [utf8Decode]
      rw [dif_neg (by simp)]
      simp only [List.headD_cons, List.tail_cons]
      rw [if_neg (by omega), if_pos (by omega), if_neg (by simp)]
      simp only [List.headD_cons, List.tail_cons, List.cons.injEq]
      exact ⟨by omega, trivial⟩
    · next h2 =>
      split
      · next h3 =>
        simp only [List.cons_append, List.nil_append]
        rw [utf8Decode]
        rw [dif_neg (by simp)]
        simp only [List.headD_cons, List.tail_cons]
        rw [if_neg (by omega), if_neg (by omega), if_pos (by omega),
          if_neg (by simp only [List.length_cons]; omega)]
        simp only [List.headD_cons, List.tail_cons, List.cons.injEq]
        exact ⟨by omega, trivial⟩
      · next h3 =>
        simp only [List.cons_append, List.nil_append]
        rw [utf8Decode]
        rw [dif_neg (by simp)]
        simp only [List.headD_cons, List.tail_cons]
        rw [if_neg (by omega), if_neg (by omega), if_neg (by omega),
          if_neg (by simp only [List.length_cons]; omega)]
        simp only [List.headD_cons, List.tail_cons, List.cons.injEq]
        exact ⟨by omega, trivial⟩

theorem utf8Decode_encode (s : List Char) : utf8Decode (utf8Encode s) = s.map Char.toNat := by
  induction s with
  | nil => simp [utf8Encode, utf8Decode_nil]
  | cons c rest ih =>
    simp only [utf8Encode, List.map]
    rw [utf8Decode_encodeChar, ih]

theorem joinChunks_applyAux_nowrap :
    ∀ (bytes : List Nat) (x nextLf : Nat) (line : List Char),
    joinChunks (applyAux 0 [] bytes x nextLf line) = line ++ encodeNoWrap bytes
  | [], x, nextLf, line => by
    simp only [applyAux, encodeNoWrap]
    split
    · simp [joinChunks]
    · next hline =>
      simp only [ne_eq, not_not] at hline
      simp [hline, joinChunks]
  | b0 :: b1 :: b2 :: rest, x, nextLf, line => by
    simp only [applyAux, encodeNoWrap]
    rw [if_neg (by simp)]
    rw [joinChunks_applyAux_nowrap rest (x + 3) nextLf (line ++ quad3 b0 b1 b2)]
    simp [List.append_assoc]
  | [b0, b1], x, nextLf, line => by
    simp only [applyAux, encodeNoWrap]
    rw [if_neg (by simp)]
    rw [if_pos (by simp [quad2])]
    simp [joinChunks]
  | [b0], x, nextLf, line => by
    simp only [applyAux, encodeNoWrap]
    rw [if_neg (by simp)]
    rw [if_pos (by simp [quad1])]
    simp [joinChunks]

/-- C3: a header value made only of the declared safe characters is returned
unchanged by `encodeIfNeeded`; a value containing any other character becomes
an encoded word of shape prefix/payload/suffix whose payload, decoded with a
standard base64 decoder and then interpreted as UTF-8, reproduces the value. -/
theorem encodeIfNeeded_spec (V : List Char) :
    (V.all safeWordChar = true → EncodeWordInBase64.encodeIfNeeded V = V) ∧
    (V.all safeWordChar = false →
      ∃ payload,
        EncodeWordInBase64.encodeIfNeeded V =
          "=?utf-8?B?".toList ++ payload ++ "?=".toList ∧
        utf8Decode (decodeB64 payload) = V.map Char.toNat) := by
  constructor
  · intro h
    simp [EncodeWordInBase64.encodeIfNeeded, h]
  · intro h
    refine ⟨joinChunks (applyStringAsUtf8 V 0), ?_, ?_⟩
    · simp [EncodeWordInBase64.encodeIfNeeded, h, EncodeWordInBase64.encode]
    · have e : joinChunks (applyStringAsUtf8 V 0) = encodeNoWrap (utf8Encode V) := by
        have e2 : applyStringAsUtf8 V 0 = applyAux 0 [] (utf8Encode V) 0 0 [] := by
          simp [applyStringAsUtf8, applyUint8Array]
        rw [e2, joinChunks_applyAux_nowrap (utf8Encode V) 0 0 []]
        simp
      rw [e, decodeB64_encodeNoWrap _ (utf8Encode_lt V), utf8Decode_encode]

/-- Witness for C3 at concrete safe and unsafe header values. -/
theorem encodeIfNeeded_spec_witness :
    ("Hello base64-_:".toList.all safeWordChar = true ∧
      EncodeWordInBase64.encodeIfNeeded "Hello base64-_:".toList = "Hello base64-_:".toList) ∧
    ("a(b".toList.all safeWordChar = false ∧
      ∃ payload,
        EncodeWordInBase64.encodeIfNeeded "a(b".toList =
          "=?utf-8?B?".toList ++ payload ++ "?=".toList ∧
        utf8Decode (decodeB64 payload) = "a(b".toList.map Char.toNat) :=
  ⟨⟨by decide, (encodeIfNeeded_spec "Hello base64-_:".toList).1 (by decide)⟩,
    ⟨by decide, (encodeIfNeeded_spec "a(b".toList).2 (by decide)⟩⟩

end PstToEml

namespace PstToEml

/-! ## The recipient fallback (claim C5) and the alternative part (claim C4) -/

theorem partitionRecipients_eq_nil : ∀ (recipients : List RecipEntry) (role : Nat),
    (∀ r ∈ recipients, r.recipType ≠ role) → partitionRecipients recipients role = []
  | [], _, _ => rfl
  | a :: l, role, h => by
    have ha : a.recipType ≠ role := h a (by simp)
    simp only [partitionRecipients, List.map_cons, List.filterMap_cons, if_neg ha]
    exact partitionRecipients_eq_nil l role (fun r hr => h r (by simp [hr]))

theorem isInfix_append_middle {α : Type} (a b rest : List α) :
    List.IsInfix b (a ++ (b ++ rest)) := ⟨a, rest, by simp [List.append_assoc]⟩

theorem to_fallback_eval :
    EmlWriter.to [AddressSpec.mk "undisclosed-recipients".toList []] =
      "To: undisclosed-recipients\r\n".toList := by decide

/-- C5: a message whose recipient list has no entry with the To role still
gets a To header line carrying the fallback label undisclosed-recipients. -/
theorem fallback_to_header (uuid : List Char) (options : MsgConverterOptions) (e : EmailRec)
    (h : ∀ r ∈ e.recipients, r.recipType ≠ 1) :
    List.IsInfix "To: undisclosed-recipients\r\n".toList (toEmlStringFrom uuid options e) := by
  cases e with
  | mk sn se subj ds body html recips atts =>
    have h2 : ∀ r ∈ recips, r.recipType ≠ 1 := fun r hr => h r hr
    have hpart := partitionRecipients_eq_nil recips 1 h2
    simp only [toEmlStringFrom, emitEml, hpart]
    simp only [applyFallbackRecipients, List.isEmpty_nil, if_true, List.nil_append]
    rw [to_fallback_eval]
    simp only [List.append_assoc]
    exact isInfix_append_middle _ _ _

/-- Witness for C5 at a message whose only recipient has the Cc role. -/
theorem fallback_to_header_witness :
    (∀ r ∈ ccOnlyMessage.recipients, r.recipType ≠ 1) ∧
    List.IsInfix "To: undisclosed-recipients\r\n".toList
      (toEmlStringFrom [] fixedOptions ccOnlyMessage) :=
  ⟨by decide, fallback_to_header [] fixedOptions ccOnlyMessage (by decide)⟩

set_option maxRecDepth 10000 in
/-- C4 (code bug evidence): for the message with only a plain body and fixed
boundaries B1/B2, the composed EML declares the nested body part inside the
top boundary as `multipart/mixed; boundary="B2"` (the source comment above
that call says multipart/alternative), and the text multipart/alternative
appears nowhere in the output. -/
theorem body_part_declared_multipart_mixed :
    List.IsInfix ("--B1\r\nContent-Type: multipart/mixed; boundary=\"B2\"\r\n").toList
      (toEmlStringFrom [] fixedOptions bodyOnlyMessage) ∧
    ¬ List.IsInfix "multipart/alternative".toList
      (toEmlStringFrom [] fixedOptions bodyOnlyMessage) := by
  constructor
  · decide
  · decide

/-! ## vCard output (claim C7) -/

/-- C7 counterexample: the code does not reduce a display-name-only contact to
the four lines BEGIN, VERSION, FN, END. -/
theorem vcard_counterexample :
    toVCardStrFrom fixedOptions (nameOnlyContact "John Doe".toList) ≠
      "BEGIN:VCARD\nVERSION:2.1\nFN:John Doe\nEND:VCARD".toList := by decide

set_option maxRecDepth 10000 in
/-- C7 (amended): a vCard line whose value cell is the undefined scalar is
skipped entirely, but the array-valued makers (N, X-MS-N-YOMI, ORG,
ADR;WORK;PREF) never yield the undefined scalar, so a contact with only a
display name (free of CR, LF and TAB) produces exactly BEGIN:VCARD,
VERSION:2.1, N:;;;;, FN with the name, X-MS-N-YOMI:;, ORG:;,
ADR;WORK;PREF:;;;; and END:VCARD. -/
theorem vcard_output (name : List Char)
    (hname : name.any (fun c => c == '\r' || c == '\n' || c == '\t') = false) :
    (∀ (pre post : List (VText × VText)) (tag : VText),
      convertVLines (pre ++ (tag, VText.vstr none) :: post) = convertVLines (pre ++ post)) ∧
    toVCardStrFrom fixedOptions (nameOnlyContact name) =
      "BEGIN:VCARD\nVERSION:2.1\nN:;;;;\nFN:".toList ++ name ++
      "\nX-MS-N-YOMI:;\nORG:;\nADR;WORK;PREF:;;;;\nEND:VCARD".toList := by
  constructor
  · intro pre post tag
    simp [convertVLines, List.filterMap_append, List.filterMap_cons]
  · have hn2 : ¬∃ x ∈ name, (x = '\r' ∨ x = '\n') ∨ x = '\t' := by
      simpa using hname
    simp [toVCardStrFrom, convertVLines, toText, vEscape, hn2, nameOnlyContact,
      List.intercalate, String.toList, List.append_assoc]

/-- Witness for the amended C7 at the name John Doe. -/
theorem vcard_output_witness :
    ("John Doe".toList.any (fun c => c == '\r' || c == '\n' || c == '\t') = false) ∧
    toVCardStrFrom fixedOptions (nameOnlyContact "John Doe".toList) =
      "BEGIN:VCARD\nVERSION:2.1\nN:;;;;\nFN:".toList ++ "John Doe".toList ++
      "\nX-MS-N-YOMI:;\nORG:;\nADR;WORK;PREF:;;;;\nEND:VCARD".toList :=
  ⟨by decide, (vcard_output "John Doe".toList (by decide)).2⟩

/-! ## Composition failure wrapping (claim C8) -/

/-- C8: in the MailComposer-based converter every failing internal build step
is re-signalled as the single "EML composition failed." error wrapping the
original cause, and no message is resolved on failure; only a successful
build resolves the composed message. -/
theorem composition_failure_wrapped (buildStep : Except (List Char) (List Char)) :
    (∀ e, buildStep = .error e →
      toEmlPromise buildStep = .error ("EML composition failed.\n".toList ++ e) ∧
      ∀ m, toEmlPromise buildStep ≠ .ok m) ∧
    (∀ m, buildStep = .ok m → toEmlPromise buildStep = .ok m) := by
  constructor
  · intro e he
    subst he
    refine ⟨rfl, ?_⟩
    intro m hcontra
    exact Except.noConfusion hcontra
  · intro m hm
    subst hm
    rfl

/-- Witness for C8 at a concrete failing build step. -/
theorem composition_failure_wrapped_witness :
    toEmlPromise (.error "boom".toList) =
      .error ("EML composition failed.\n".toList ++ "boom".toList) ∧
    (∀ m, toEmlPromise (.error "boom".toList) ≠ .ok m) ∧
    toEmlPromise (.ok "mail".toList) = .ok "mail".toList :=
  ⟨((composition_failure_wrapped (.error "boom".toList)).1 _ rfl).1,
    ((composition_failure_wrapped (.error "boom".toList)).1 _ rfl).2,
    (composition_failure_wrapped (.ok "mail".toList)).2 _ rfl⟩

end PstToEml

namespace PstToEml

/-! ## Boundary declaration versus delimiter lines (claim C10) -/

theorem encodeNoWrap_length_ge : ∀ l : List Nat, l.length ≤ (encodeNoWrap l).length
  | [] => by simp [encodeNoWrap]
  | [b0] => by simp [encodeNoWrap, quad1]
  | [b0, b1] => by simp [encodeNoWrap, quad2]
  | b0 :: b1 :: b2 :: rest => by
    have h := encodeNoWrap_length_ge rest
    simp only [encodeNoWrap, List.length_append, quad3_length, List.length_cons]
    omega

theorem utf8EncodeChar_length_pos (c : Char) : 1 ≤ (utf8EncodeChar c).length := by
  simp only [utf8EncodeChar]
  split
  · simp
  · split
    · simp
    · split
      · simp
      · simp

theorem utf8Encode_length_ge : ∀ s : List Char, s.length ≤ (utf8Encode s).length
  | [] => Nat.le_refl _
  | c :: rest => by
    have h1 := utf8EncodeChar_length_pos c
    have h2 := utf8Encode_length_ge rest
    simp only [utf8Encode, List.length_append, List.length_cons]
    omega

theorem joinChunks_applyStringAsUtf8_nowrap (w : List Char) :
    joinChunks (applyStringAsUtf8 w 0) = encodeNoWrap (utf8Encode w) := by
  have e2 : applyStringAsUtf8 w 0 = applyAux 0 [] (utf8Encode w) 0 0 [] := by
    simp [applyStringAsUtf8, applyUint8Array]
  rw [e2, joinChunks_applyAux_nowrap]
  simp

theorem encode_ne (w : List Char) : EncodeWordInBase64.encode w ≠ w := by
  intro hcontra
  have hlen : (EncodeWordInBase64.encode w).length = w.length := by rw [hcontra]
  simp only [EncodeWordInBase64.encode, joinChunks_applyStringAsUtf8_nowrap,
    List.length_append] at hlen
  have h4 := encodeNoWrap_length_ge (utf8Encode w)
  have h5 := utf8Encode_length_ge w
  have h6 : "=?utf-8?B?".toList.length = 10 := by decide
  have h7 : "?=".toList.length = 2 := by decide
  omega

/-- C10: `contentTypeMultipartMixed` passes the boundary through the
encoded-word encoder before quoting it into the Content-Type header, while
`beginBoundary` and `endBoundary` emit the boundary raw; so for a boundary of
safe characters the declared parameter is character-for-character the
delimiter text, and for any boundary containing an unsafe character the
declared parameter differs from the raw delimiter text. -/
theorem boundary_encoding (b : List Char) :
    EmlWriter.contentTypeMultipartMixed b =
      "Content-Type: multipart/mixed; boundary=\"".toList ++
        EncodeWordInBase64.encodeIfNeeded b ++ "\"\r\n".toList ∧
    EmlWriter.beginBoundary b = "--".toList ++ b ++ "\r\n".toList ∧
    EmlWriter.endBoundary b = "--".toList ++ b ++ "--\r\n".toList ∧
    (b.all safeWordChar = true → EncodeWordInBase64.encodeIfNeeded b = b) ∧
    (b.all safeWordChar = false → EncodeWordInBase64.encodeIfNeeded b ≠ b) := by
  refine ⟨?_, ?_, ?_, ?_, ?_⟩
  · simp only [EmlWriter.contentTypeMultipartMixed, EmlWriter.writeHeader, CRLF,
      List.append_assoc]
    rfl
  · rfl
  · simp only [EmlWriter.endBoundary, CRLF, List.append_assoc]
    rfl
  · intro h
    simp [EncodeWordInBase64.encodeIfNeeded, h]
  · intro h
    simp only [EncodeWordInBase64.encodeIfNeeded, h, Bool.false_eq_true, if_false]
    exact encode_ne b

/-- Witness for C10 at the safe boundary B1 and the unsafe boundary "(". -/
theorem boundary_encoding_witness :
    ("B1".toList.all safeWordChar = true ∧
      EncodeWordInBase64.encodeIfNeeded "B1".toList = "B1".toList) ∧
    ("(".toList.all safeWordChar = false ∧
      EncodeWordInBase64.encodeIfNeeded "(".toList ≠ "(".toList) ∧
    EmlWriter.beginBoundary "B1".toList = "--B1\r\n".toList :=
  ⟨⟨by decide, (boundary_encoding "B1".toList).2.2.2.1 (by decide)⟩,
    ⟨by decide, (boundary_encoding "(".toList).2.2.2.2 (by decide)⟩,
    ((boundary_encoding "B1".toList).2.1).trans (by decide)⟩

end PstToEml

namespace PstToEml

/-! ## Embedded-message attachments (claim C6) -/

theorem toEmlStringFrom_ne_nil (uuid : List Char) (options : MsgConverterOptions) (e : EmailRec) :
    toEmlStringFrom uuid options e ≠ [] := by
  cases e with
  | mk sn se subj ds body html recips atts =>
    simp only [toEmlStringFrom, emitEml]
    intro hcontra
    simp [List.append_eq_nil, EmlWriter.endBoundary, CRLF] at hcontra

/-- C6: a message whose single attachment embeds a message yields, with
`allowNestedEml`, a final `message/rfc822` part with 7bit transfer encoding
whose body is the nested composition written line by line with CRLF
terminators (no base64); without `allowNestedEml` it yields a final
`application/octet-stream` part whose declared filename ends in .eml and whose
body is the base64 encoding of the nested composition's UTF-8 bytes. -/
theorem nested_eml_attachment (uuid : List Char) (options : MsgConverterOptions)
    (sn se subj ds body html : List Char) (recips : List RecipEntry)
    (meta : PSTAttachmentRec) (emb : EmailRec) :
    (options.allowNestedEml = true →
      List.IsSuffix
        (EmlWriter.newLine ++
          EmlWriter.beginBoundary
            (options.baseBoundary.getD ("_b1".toList ++ uuid ++ "_".toList)) ++
          EmlWriter.contentType ("message/rfc822; name=\"".toList ++
            EncodeWordInBase64.encodeIfNeeded
              (changeFileExtension (resolveFilename meta) ".eml".toList) ++ "\"".toList) ++
          EmlWriter.contentTransferEncoding "7bit".toList ++
          (if ¬meta.contentId.isEmpty then EmlWriter.contentId meta.contentId else []) ++
          EmlWriter.newLine ++
          joinChunks ((splitRN (toEmlStringFrom uuid options emb)).map
            (fun line => line ++ CRLF)) ++
          EmlWriter.endBoundary
            (options.baseBoundary.getD ("_b1".toList ++ uuid ++ "_".toList)))
        (toEmlStringFrom uuid options
          (EmailRec.mk sn se subj ds body html recips [(meta, some emb)]))) ∧
    (options.allowNestedEml = false →
      (∃ stem, changeFileExtension (resolveFilename meta) ".eml".toList =
        stem ++ ".eml".toList) ∧
      List.IsSuffix
        (EmlWriter.newLine ++
          EmlWriter.beginBoundary
            (options.baseBoundary.getD ("_b1".toList ++ uuid ++ "_".toList)) ++
          EmlWriter.contentType ("application/octet-stream; name=\"".toList ++
            EncodeWordInBase64.encodeIfNeeded
              (changeFileExtension (resolveFilename meta) ".eml".toList) ++ "\"".toList) ++
          EmlWriter.writeHeader "Content-Disposition".toList
            ("attachment; filename=\"".toList ++
              EncodeWordInBase64.encodeIfNeeded
                (changeFileExtension (resolveFilename meta) ".eml".toList) ++ "\"".toList) ++
          EmlWriter.contentTransferEncoding "base64".toList ++
          (if ¬meta.contentId.isEmpty then EmlWriter.contentId meta.contentId else []) ++
          EmlWriter.newLine ++
          joinChunks (applyUint8Array (utf8Encode (toEmlStringFrom uuid options emb)) 54) ++
          EmlWriter.endBoundary
            (options.baseBoundary.getD ("_b1".toList ++ uuid ++ "_".toList)))
        (toEmlStringFrom uuid options
          (EmailRec.mk sn se subj ds body html recips [(meta, some emb)]))) := by
  constructor
  · intro h
    have hne := toEmlStringFrom_ne_nil uuid options emb
    have hemp : (toEmlStringFrom uuid options emb).isEmpty = false := by
      simpa [List.isEmpty_iff] using hne
    refine ⟨EmlWriter.fromHeader (AddressSpec.mk sn se) ++
      EmlWriter.to (applyFallbackRecipients (partitionRecipients recips 1)
        (AddressSpec.mk "undisclosed-recipients".toList [])) ++
      EmlWriter.cc (partitionRecipients recips 2) ++
      EmlWriter.bcc (partitionRecipients recips 3) ++
      EmlWriter.subject subj ++
      EmlWriter.date ds ++
      EmlWriter.messageId options.messageId ++
      EmlWriter.contentTypeMultipartMixed
        (options.baseBoundary.getD ("_b1".toList ++ uuid ++ "_".toList)) ++
      EmlWriter.mimeVersion1 ++
      (if ¬html.isEmpty ∨ ¬body.isEmpty then
        altSection (options.baseBoundary.getD ("_b1".toList ++ uuid ++ "_".toList))
          (options.altBoundary.getD ("_b2".toList ++ uuid ++ "_".toList)) body html
      else []), ?_⟩
    simp only [toEmlStringFrom, refineAttachments, h, if_true, emitEml,
      List.map_cons, List.map_nil, joinChunks, List.append_nil,
      attachmentSection, truthyStr, hemp, Bool.not_false, List.append_assoc,
      Option.getD_some]
  · intro h
    constructor
    · refine ⟨(if ¬(posixParse (resolveFilename meta)).dir.isEmpty then
        (posixParse (resolveFilename meta)).dir ++ ['/'] else []) ++
        (posixParse (resolveFilename meta)).name, ?_⟩
      simp [changeFileExtension, List.append_assoc]
    · refine ⟨EmlWriter.fromHeader (AddressSpec.mk sn se) ++
        EmlWriter.to (applyFallbackRecipients (partitionRecipients recips 1)
          (AddressSpec.mk "undisclosed-recipients".toList [])) ++
        EmlWriter.cc (partitionRecipients recips 2) ++
        EmlWriter.bcc (partitionRecipients recips 3) ++
        EmlWriter.subject subj ++
        EmlWriter.date ds ++
        EmlWriter.messageId options.messageId ++
        EmlWriter.contentTypeMultipartMixed
          (options.baseBoundary.getD ("_b1".toList ++ uuid ++ "_".toList)) ++
        EmlWriter.mimeVersion1 ++
        (if ¬html.isEmpty ∨ ¬body.isEmpty then
          altSection (options.baseBoundary.getD ("_b1".toList ++ uuid ++ "_".toList))
            (options.altBoundary.getD ("_b2".toList ++ uuid ++ "_".toList)) body html
        else []), ?_⟩
      simp only [toEmlStringFrom, refineAttachments, h, Bool.false_eq_true, if_false, emitEml,
        List.map_cons, List.map_nil, joinChunks, List.append_nil,
        attachmentSection, truthyStr, Option.isSome_some, if_true, Option.getD_some,
        List.append_assoc]

/-- Witness for C6: the nested mode applied to the concrete message with one
embedded-message attachment named report.msg. -/
theorem nested_eml_attachment_witness :
    fixedOptionsNested.allowNestedEml = true ∧
    List.IsSuffix
      (EmlWriter.newLine ++
        EmlWriter.beginBoundary
          (fixedOptionsNested.baseBoundary.getD ("_b1".toList ++ ([] : List Char) ++ "_".toList)) ++
        EmlWriter.contentType ("message/rfc822; name=\"".toList ++
          EncodeWordInBase64.encodeIfNeeded
            (changeFileExtension
              (resolveFilename (PSTAttachmentRec.mk "report.msg".toList [] [] [] none))
              ".eml".toList) ++ "\"".toList) ++
        EmlWriter.contentTransferEncoding "7bit".toList ++
        (if ¬(PSTAttachmentRec.mk "report.msg".toList [] [] [] none).contentId.isEmpty then
          EmlWriter.contentId (PSTAttachmentRec.mk "report.msg".toList [] [] [] none).contentId
        else []) ++
        EmlWriter.newLine ++
        joinChunks ((splitRN (toEmlStringFrom [] fixedOptionsNested bodyOnlyMessage)).map
          (fun line => line ++ CRLF)) ++
        EmlWriter.endBoundary
          (fixedOptionsNested.baseBoundary.getD ("_b1".toList ++ ([] : List Char) ++ "_".toList)))
      (toEmlStringFrom [] fixedOptionsNested
        (EmailRec.mk "s".toList "s@x".toList "subj".toList "date".toList [] [] []
          [(PSTAttachmentRec.mk "report.msg".toList [] [] [] none, some bodyOnlyMessage)])) :=
  ⟨rfl,
    (nested_eml_attachment [] fixedOptionsNested "s".toList "s@x".toList "subj".toList
      "date".toList [] [] [] (PSTAttachmentRec.mk "report.msg".toList [] [] [] none)
      bodyOnlyMessage).1 rfl⟩

end PstToEml


namespace PstToEml

/-! ## C9: changeFileExtension — node's posix `path.parse` scan on plain
dir/base.ext filenames, and the dotfile behaviour. -/

theorem scan_step_init (s : List Char) (i : Nat)
    (hc : s.getD i ' ' ≠ '.' ∧ s.getD i ' ' ≠ '/') :
    scanPart s 0 (i + 1) (ParseState.mk (-1) 0 (-1) true 0) =
      scanPart s 0 i (ParseState.mk (-1) 0 (Int.ofNat (i + 1)) false 0) := by
  rw [scanPart]
  rw [if_neg (by omega)]
  simp only [hc.1, hc.2, if_false, if_pos rfl, if_neg hc.2, if_neg hc.1,
    if_neg (show ¬((-1 : Int) ≠ -1) by simp)]
  simp

theorem scan_step_dot (s : List Char) (i : Nat) (en : Int) (he : en ≠ -1)
    (hc : s.getD i ' ' = '.') :
    scanPart s 0 (i + 1) (ParseState.mk (-1) 0 en false 0) =
      scanPart s 0 i (ParseState.mk (Int.ofNat i) 0 en false 0) := by
  rw [scanPart]
  rw [if_neg (by omega)]
  have hns : s.getD i ' ' ≠ '/' := by rw [hc]; decide
  simp only [hc, if_neg hns, if_neg he, if_pos rfl]
  simp

theorem scan_step_dot_init (s : List Char) (i : Nat) (hc : s.getD i ' ' = '.') :
    scanPart s 0 (i + 1) (ParseState.mk (-1) 0 (-1) true 0) =
      scanPart s 0 i (ParseState.mk (Int.ofNat i) 0 (Int.ofNat (i + 1)) false 0) := by
  rw [scanPart]
  rw [if_neg (by omega)]
  have hns : s.getD i ' ' ≠ '/' := by rw [hc]; decide
  simp only [hc, if_neg hns, if_pos rfl]
  simp

theorem scan_step_firstbase (s : List Char) (i : Nat) (dn : Nat) (en : Int) (he : en ≠ -1)
    (hc : s.getD i ' ' ≠ '.' ∧ s.getD i ' ' ≠ '/') :
    scanPart s 0 (i + 1) (ParseState.mk (Int.ofNat dn) 0 en false 0) =
      scanPart s 0 i (ParseState.mk (Int.ofNat dn) 0 en false (-1)) := by
  rw [scanPart]
  rw [if_neg (by omega)]
  have hd : (Int.ofNat dn) ≠ -1 := by simp only [Int.ofNat_eq_natCast]; omega
  simp only [hc.1, hc.2, if_false, if_neg he, if_neg hc.2, if_neg hc.1, if_pos hd]

theorem scan_step_slash (s : List Char) (i : Nat) (st : ParseState)
    (hms : st.matchedSlash = false) (hc : s.getD i ' ' = '/') :
    scanPart s 0 (i + 1) st =
      ParseState.mk st.startDot (i + 1) st.endIdx st.matchedSlash st.preDotState := by
  rw [scanPart]
  rw [if_neg (by omega)]
  simp only [hc, if_pos rfl, hms, Bool.not_false, if_pos rfl]
  simp

theorem getD_mem (l : List Char) (n : Nat) (h : n < l.length) (d : Char) : l.getD n d ∈ l := by
  rw [List.getD_eq_getElem?_getD]
  rw [List.getElem?_eq_getElem h]
  simp

theorem scan_plain_nodot (s : List Char) (en : Int) (he : en ≠ -1) :
    ∀ (k m : Nat), (∀ j, m ≤ j → j < m + k → s.getD j ' ' ≠ '.' ∧ s.getD j ' ' ≠ '/') →
    scanPart s 0 (m + k) (ParseState.mk (-1) 0 en false 0) =
      scanPart s 0 m (ParseState.mk (-1) 0 en false 0) := by
  intro k
  induction k with
  | zero => intro m h; rfl
  | succ k ih =>
    intro m h
    have hc := h (m + k) (by omega) (by omega)
    show scanPart s 0 (m + k + 1) (ParseState.mk (-1) 0 en false 0) = _
    rw [scanPart]
    rw [if_neg (by omega)]
    simp only [hc.1, hc.2, if_false, if_neg he, if_neg hc.2, if_neg hc.1,
      if_neg (show ¬((-1 : Int) ≠ -1) by simp)]
    rw [ih m (fun j h1 h2 => h j h1 (by omega))]

theorem scan_plain_afterdot (s : List Char) (dn : Nat) (en : Int) (he : en ≠ -1) :
    ∀ (k m : Nat), (∀ j, m ≤ j → j < m + k → s.getD j ' ' ≠ '.' ∧ s.getD j ' ' ≠ '/') →
    scanPart s 0 (m + k) (ParseState.mk (Int.ofNat dn) 0 en false (-1)) =
      scanPart s 0 m (ParseState.mk (Int.ofNat dn) 0 en false (-1)) := by
  intro k
  induction k with
  | zero => intro m h; rfl
  | succ k ih =>
    intro m h
    have hc := h (m + k) (by omega) (by omega)
    have hd : (Int.ofNat dn) ≠ -1 := by
      simp only [Int.ofNat_eq_natCast]
      omega
    show scanPart s 0 (m + k + 1) (ParseState.mk (Int.ofNat dn) 0 en false (-1)) = _
    rw [scanPart]
    rw [if_neg (by omega)]
    simp only [hc.1, hc.2, if_false, if_neg he, if_neg hc.2, if_neg hc.1, if_pos hd]
    rw [ih m (fun j h1 h2 => h j h1 (by omega))]

theorem sGetD_base (u base rest : List Char) (j : Nat) (h1 : u.length ≤ j)
    (h2 : j < u.length + base.length) :
    (u ++ (base ++ rest)).getD j ' ' = base.getD (j - u.length) ' ' := by
  rw [List.getD_append_right _ _ _ _ h1]
  rw [List.getD_append _ _ _ _ (by omega)]

theorem sGetD_dot (u base ext : List Char) :
    (u ++ (base ++ '.' :: ext)).getD (u.length + base.length) ' ' = '.' := by
  rw [List.getD_append_right _ _ _ _ (by omega)]
  rw [List.getD_append_right _ _ _ _ (by omega)]
  simp [Nat.add_sub_cancel_left]

theorem sGetD_ext (u base ext : List Char) (j : Nat)
    (h1 : u.length + base.length + 1 ≤ j) :
    (u ++ (base ++ '.' :: ext)).getD j ' ' =
      ext.getD (j - (u.length + base.length + 1)) ' ' := by
  rw [List.getD_append_right _ _ _ _ (by omega)]
  rw [List.getD_append_right _ _ _ _ (by omega)]
  have e : j - u.length - base.length = (j - (u.length + base.length + 1)) + 1 := by omega
  rw [e, List.getD_cons_succ]

theorem sLength (u base ext : List Char) :
    (u ++ (base ++ '.' :: ext)).length = u.length + base.length + 1 + ext.length := by
  simp [List.length_append]
  omega

theorem ofNat_ne_negOne (n : Nat) : Int.ofNat n ≠ -1 := by
  simp only [Int.ofNat_eq_natCast]
  omega

theorem scan_base_part (u base ext : List Char) (dn : Nat) (en : Int) (he : en ≠ -1)
    (hbase : ∀ c ∈ base, plainChar c) (hbne : base ≠ []) :
    scanPart (u ++ (base ++ '.' :: ext)) 0 (u.length + base.length)
      (ParseState.mk (Int.ofNat dn) 0 en false 0) =
    scanPart (u ++ (base ++ '.' :: ext)) 0 u.length
      (ParseState.mk (Int.ofNat dn) 0 en false (-1)) := by
  have hB : 1 ≤ base.length := by
    cases base with
    | nil => exact absurd rfl hbne
    | cons a l => simp
  have hplain : ∀ j, u.length ≤ j → j < u.length + base.length →
      (u ++ (base ++ '.' :: ext)).getD j ' ' ≠ '.' ∧
      (u ++ (base ++ '.' :: ext)).getD j ' ' ≠ '/' := by
    intro j h1 h2
    rw [sGetD_base u base ('.' :: ext) j h1 h2]
    exact hbase _ (getD_mem base (j - u.length) (by omega) ' ')
  rw [show u.length + base.length = (u.length + (base.length - 1)) + 1 by omega]
  rw [scan_step_firstbase _ _ _ _ he (hplain _ (by omega) (by omega))]
  have := scan_plain_afterdot (u ++ (base ++ '.' :: ext)) dn en he (base.length - 1) u.length
    (fun j h1 h2 => hplain j h1 (by omega))
  exact this

theorem scan_upper (u base ext : List Char)
    (hbase : ∀ c ∈ base, plainChar c) (hext : ∀ c ∈ ext, plainChar c) (hbne : base ≠ []) :
    ∃ en : Int, en ≠ -1 ∧
      scanPart (u ++ (base ++ '.' :: ext)) 0 (u ++ (base ++ '.' :: ext)).length
        (ParseState.mk (-1) 0 (-1) true 0) =
      scanPart (u ++ (base ++ '.' :: ext)) 0 u.length
        (ParseState.mk (Int.ofNat (u.length + base.length)) 0 en false (-1)) := by
  have hplainext : ∀ j, u.length + base.length + 1 ≤ j →
      j < (u ++ (base ++ '.' :: ext)).length →
      (u ++ (base ++ '.' :: ext)).getD j ' ' ≠ '.' ∧
      (u ++ (base ++ '.' :: ext)).getD j ' ' ≠ '/' := by
    intro j h1 h2
    rw [sGetD_ext u base ext j h1]
    have hlen := sLength u base ext
    exact hext _ (getD_mem ext (j - (u.length + base.length + 1)) (by omega) ' ')
  have hlen := sLength u base ext
  cases ext with
  | nil =>
    simp only [List.length_nil, Nat.add_zero] at hlen
    refine ⟨Int.ofNat (u.length + base.length + 1), ofNat_ne_negOne _, ?_⟩
    rw [show (u ++ (base ++ '.' :: [])).length = (u.length + base.length) + 1 by omega]
    rw [scan_step_dot_init _ _ (sGetD_dot u base [])]
    rw [show u.length + base.length + 1 = u.length + base.length + 1 from rfl]
    exact scan_base_part u base [] (u.length + base.length)
      (Int.ofNat (u.length + base.length + 1)) (ofNat_ne_negOne _) hbase hbne
  | cons c0 ext0 =>
    simp only [List.length_cons] at hlen
    refine ⟨Int.ofNat (u ++ (base ++ '.' :: c0 :: ext0)).length, ofNat_ne_negOne _, ?_⟩
    rw [show (u ++ (base ++ '.' :: c0 :: ext0)).length =
      ((u.length + base.length + 1) + ext0.length) + 1 by omega]
    rw [scan_step_init _ _ (hplainext _ (by omega) (by omega))]
    rw [show ((u.length + base.length + 1) + ext0.length) + 1 =
      (u ++ (base ++ '.' :: c0 :: ext0)).length by omega]
    have hstable := scan_plain_nodot (u ++ (base ++ '.' :: c0 :: ext0))
      (Int.ofNat (u ++ (base ++ '.' :: c0 :: ext0)).length) (ofNat_ne_negOne _)
      ext0.length (u.length + base.length + 1)
      (fun j h1 h2 => hplainext j h1 (by omega))
    rw [show (u.length + base.length + 1) + ext0.length =
      (u.length + base.length + 1) + ext0.length from rfl] at hstable
    rw [hstable]
    rw [show u.length + base.length + 1 = (u.length + base.length) + 1 from rfl]
    rw [scan_step_dot _ _ _ (ofNat_ne_negOne _) (sGetD_dot u base (c0 :: ext0))]
    exact scan_base_part u base (c0 :: ext0) (u.length + base.length)
      (Int.ofNat (u ++ (base ++ '.' :: c0 :: ext0)).length) (ofNat_ne_negOne _) hbase hbne

theorem scan_total_nodir (base ext : List Char)
    (hbase : ∀ c ∈ base, plainChar c) (hext : ∀ c ∈ ext, plainChar c) (hbne : base ≠ []) :
    ∃ en : Int, en ≠ -1 ∧
      scanPart (base ++ '.' :: ext) 0 (base ++ '.' :: ext).length
        (ParseState.mk (-1) 0 (-1) true 0) =
      ParseState.mk (Int.ofNat base.length) 0 en false (-1) := by
  obtain ⟨en, he, heq⟩ := scan_upper [] base ext hbase hext hbne
  refine ⟨en, he, ?_⟩
  simp only [List.nil_append, List.length_nil, Nat.zero_add] at heq
  rw [heq]
  rfl

theorem scan_total_dir (dir base ext : List Char)
    (hbase : ∀ c ∈ base, plainChar c) (hext : ∀ c ∈ ext, plainChar c) (hbne : base ≠ []) :
    ∃ en : Int, en ≠ -1 ∧
      scanPart ((dir ++ ['/']) ++ (base ++ '.' :: ext)) 0
        ((dir ++ ['/']) ++ (base ++ '.' :: ext)).length
        (ParseState.mk (-1) 0 (-1) true 0) =
      ParseState.mk (Int.ofNat (dir.length + 1 + base.length)) (dir.length + 1) en
        false (-1) := by
  obtain ⟨en, he, heq⟩ := scan_upper (dir ++ ['/']) base ext hbase hext hbne
  refine ⟨en, he, ?_⟩
  rw [heq]
  have hsl : ((dir ++ ['/']) ++ (base ++ '.' :: ext)).getD dir.length ' ' = '/' := by
    rw [List.getD_append _ _ _ _ (by simp)]
    rw [List.getD_append_right _ _ _ _ (by omega)]
    simp
  have hlen2 : (dir ++ ['/']).length = dir.length + 1 := by simp
  rw [show (dir ++ ['/']).length = dir.length + 1 from hlen2]
  rw [scan_step_slash _ _ _ rfl hsl]

theorem changeFileExtension_nodir (base ext e : List Char)
    (hbase : ∀ c ∈ base, plainChar c) (hext : ∀ c ∈ ext, plainChar c) (hbne : base ≠ []) :
    changeFileExtension (base ++ '.' :: ext) e = base ++ e := by
  obtain ⟨en, he, hscan⟩ := scan_total_nodir base ext hbase hext hbne
  cases base with
  | nil => exact absurd rfl hbne
  | cons b0 base0 =>
    have hb0 := hbase b0 (by simp)
    have hhead : (((b0 :: base0) ++ '.' :: ext).headD ' ' == '/') = false := by
      simp only [List.cons_append, List.headD_cons]
      exact beq_eq_false_iff_ne.mpr hb0.2
    simp only [changeFileExtension, posixParse, List.isEmpty_eq_true, hhead,
      Bool.false_eq_true, if_false, hscan]
    rw [if_neg (show ¬(b0 :: base0 ++ '.' :: ext = []) by simp)]
    rw [if_neg he]
    rw [if_neg (show ¬(Int.ofNat (b0 :: base0).length = -1 ∨ (-1 : Int) = 0 ∨
        ((-1 : Int) = 1 ∧ Int.ofNat (b0 :: base0).length = en - 1 ∧
          Int.ofNat (b0 :: base0).length = Int.ofNat 0 + 1)) by
      push_neg
      exact ⟨ofNat_ne_negOne _, by decide, fun h => absurd h (by decide)⟩)]
    simp only [Int.toNat_ofNat, sliceStr, List.drop_zero]
    simp [List.length_cons, List.take_succ_cons, List.take_left]

theorem changeFileExtension_dir (dir base ext e : List Char)
    (hdir : ∀ c ∈ dir, plainChar c)
    (hbase : ∀ c ∈ base, plainChar c) (hext : ∀ c ∈ ext, plainChar c)
    (hdne : dir ≠ []) (hbne : base ≠ []) :
    changeFileExtension ((dir ++ ['/']) ++ (base ++ '.' :: ext)) e =
      (dir ++ ['/']) ++ (base ++ e) := by
  obtain ⟨en, he, hscan⟩ := scan_total_dir dir base ext hbase hext hbne
  cases dir with
  | nil => exact absurd rfl hdne
  | cons d0 dir0 =>
    have hd0 := hdir d0 (by simp)
    have hhead : ((((d0 :: dir0) ++ ['/']) ++ (base ++ '.' :: ext)).headD ' ' == '/') = false := by
      simp only [List.cons_append, List.headD_cons]
      exact beq_eq_false_iff_ne.mpr hd0.2
    simp only [changeFileExtension, posixParse, List.isEmpty_eq_true, hhead,
      Bool.false_eq_true, if_false, hscan]
    rw [if_neg (show ¬(d0 :: dir0 ++ ['/'] ++ (base ++ '.' :: ext) = []) by simp)]
    rw [if_neg he]
    rw [if_neg (show ¬(Int.ofNat ((d0 :: dir0).length + 1 + base.length) = -1 ∨ (-1 : Int) = 0 ∨
        ((-1 : Int) = 1 ∧ Int.ofNat ((d0 :: dir0).length + 1 + base.length) = en - 1 ∧
          Int.ofNat ((d0 :: dir0).length + 1 + base.length) =
            Int.ofNat ((d0 :: dir0).length + 1) + 1)) by
      push_neg
      exact ⟨ofNat_ne_negOne _, by decide, fun h1 => absurd h1 (by decide)⟩)]
    rw [if_pos (show ((d0 :: dir0).length + 1 > 0) by omega)]
    rw [if_neg (show ¬((d0 :: dir0).length + 1 = 0 ∧ False) by simp)]
    simp only [Nat.add_sub_cancel, Int.ofNat_eq_natCast, Int.toNat_ofNat, sliceStr,
      List.drop_zero, List.length_cons]
    rw [List.append_assoc (d0 :: dir0) ['/'] (base ++ '.' :: ext)]
    rw [List.take_left' (show ((d0 :: dir0 : List Char)).length = dir0.length + 1 by simp)]
    rw [show ((d0 :: dir0) ++ (['/'] ++ (base ++ '.' :: ext)) : List Char) =
      (((d0 :: dir0) ++ ['/']) ++ base) ++ ('.' :: ext) by simp]
    rw [List.take_left' (show ((((d0 :: dir0) ++ ['/']) ++ base)).length =
      dir0.length + 1 + 1 + base.length by
        simp only [List.length_append, List.length_cons, List.length_nil]
        try omega)]
    rw [List.drop_left' (show (((d0 :: dir0) ++ ['/'])).length = dir0.length + 1 + 1 by
        simp only [List.length_append, List.length_cons, List.length_nil]
        try omega)]
    simp

/-- C9: for a filename of the ordinary shape `base.ext` or `dir/base.ext`
(all three parts free of further dots and slashes, `base` non-empty),
`changeFileExtension` drops the final extension and appends the new one,
preserving the directory prefix; and the refinement loop applies
`changeFileExtension(..., ".eml")` to the embedded message's filename in both
`allowNestedEml` modes.  (For every filename the claim is false: see the
dotfile counterexample.) -/
theorem changeFileExtension_spec (dir base ext e : List Char)
    (hdir : ∀ c ∈ dir, plainChar c) (hbase : ∀ c ∈ base, plainChar c)
    (hext : ∀ c ∈ ext, plainChar c) (hdne : dir ≠ []) (hbne : base ≠ []) :
    changeFileExtension (base ++ '.' :: ext) e = base ++ e ∧
    changeFileExtension ((dir ++ ['/']) ++ (base ++ '.' :: ext)) e =
      (dir ++ ['/']) ++ (base ++ e) ∧
    ∀ (uuid : List Char) (options : MsgConverterOptions) (meta : PSTAttachmentRec)
      (emb : EmailRec) (rest : List (PSTAttachmentRec × Option EmailRec)),
      ∃ refined tail,
        refineAttachments uuid options ((meta, some emb) :: rest) = refined :: tail ∧
        refined.filename = changeFileExtension (resolveFilename meta) ".eml".toList := by
  refine ⟨changeFileExtension_nodir base ext e hbase hext hbne,
    changeFileExtension_dir dir base ext e hdir hbase hext hdne hbne, ?_⟩
  intro uuid options meta emb rest
  by_cases h : options.allowNestedEml = true
  · simp only [refineAttachments, h, if_true]
    exact ⟨_, _, rfl, rfl⟩
  · simp only [refineAttachments, h, Bool.false_eq_true, if_false]
    exact ⟨_, _, rfl, rfl⟩

/-- C9 counterexample: the dotfile ".msg" has no extension for node's
`path.parse` (its single dot is at position 0), so `changeFileExtension`
appends rather than replaces: the result is ".msg.eml", while "removing the
part from the last dot onward and appending" would give ".eml". -/
theorem changeFileExtension_counterexample :
    changeFileExtension ".msg".toList ".eml".toList = ".msg.eml".toList ∧
    ".msg.eml".toList ≠ ".eml".toList := by decide

/-- Witness: "tmp/report.msg" becomes "tmp/report.eml" and "report.msg"
becomes "report.eml". -/
theorem changeFileExtension_spec_witness :
    changeFileExtension "tmp/report.msg".toList ".eml".toList = "tmp/report.eml".toList ∧
    changeFileExtension "report.msg".toList ".eml".toList = "report.eml".toList := by
  have h := changeFileExtension_spec "tmp".toList "report".toList "msg".toList ".eml".toList
    (by intro c hc; fin_cases hc <;> exact ⟨by decide, by decide⟩)
    (by intro c hc; fin_cases hc <;> exact ⟨by decide, by decide⟩)
    (by intro c hc; fin_cases hc <;> exact ⟨by decide, by decide⟩)
    (by decide) (by decide)
  constructor
  · rw [show ("tmp/report.msg".toList : List Char) =
      ("tmp".toList ++ ['/']) ++ ("report".toList ++ '.' :: "msg".toList) by decide]
    rw [show ("tmp/report.eml".toList : List Char) =
      ("tmp".toList ++ ['/']) ++ ("report".toList ++ ".eml".toList) by decide]
    exact h.2.1
  · rw [show ("report.msg".toList : List Char) =
      "report".toList ++ '.' :: "msg".toList by decide]
    rw [show ("report.eml".toList : List Char) =
      "report".toList ++ ".eml".toList by decide]
    exact h.1

end PstToEml
